import Mathlib

/- Verification development for the DVID storage core: the versioned key codec
   (storage/context.go), the per-label Meta index with its access-time cache and
   the block-mutation aggregation pipeline (labelarray), and the sparse-volume
   run-length-encoding builders.  Go code is shallowly embedded: byte strings
   become lists of naturals, Go maps become association lists in iteration
   order, uint64 arithmetic is carried out on Nat/Int with explicit reduction
   modulo 2^64, and functions that can hit a Go runtime panic (out-of-range
   index, nil-pointer dereference) return a GoResult. -/

namespace DvidProof

/-- Outcome of running a Go function: a normal result, or a runtime panic such
as an index-out-of-range or nil-pointer dereference. -/
inductive GoResult (α : Type) where
  | ok : α → GoResult α
  | crash : GoResult α
deriving DecidableEq, Repr

/-- Key prefix byte of the metadata keyspace (metadataKeyPrefix = 0 in
storage/context.go). -/
def metadataKeyByte : Nat := 0

/-- Key prefix byte of the data keyspace (dataKeyPrefix = 1 in
storage/context.go). -/
def dataKeyByte : Nat := 1

/-- Modelled from the spec: dvid.InstanceIDSize.  An InstanceID is a 32-bit
identifier of a data instance, rendered as 4 bytes in keys. -/
def InstanceIDSize : Nat := 4

/-- Modelled from the spec: dvid.VersionIDSize.  A VersionID is a 32-bit local
identifier of a version DAG node, rendered as 4 bytes in keys. -/
def VersionIDSize : Nat := 4

/-- Modelled from the spec: dvid.InstanceID.Bytes and dvid.VersionID.Bytes
render the 32-bit identifier as exactly 4 bytes (big-endian so that
lexicographic key order follows numeric order). -/
def uint32Bytes (n : Nat) : List Nat :=
  [n / 2 ^ 24 % 256, n / 2 ^ 16 % 256, n / 2 ^ 8 % 256, n % 256]

/-- DataContext from storage/context.go: a data instance id plus the version id
of the DAG node being operated on. -/
structure DataContext where
  instanceID : Nat
  versionID : Nat

/-- MetadataContext.ConstructKey: prepend the metadata prefix byte. -/
def MetadataContext.ConstructKey (index : List Nat) : List Nat :=
  metadataKeyByte :: index

/-- MetadataContext.IndexFromKey: reads key[0] with no length check (the empty
key panics), rejects a non-metadata prefix with an error, else returns
key[1:]. -/
def MetadataContext.IndexFromKey (key : List Nat) : GoResult (Except String (List Nat)) :=
  match key with
  | [] => .crash
  | b :: rest =>
      if b = metadataKeyByte then .ok (.ok rest)
      else .ok (.error "Cannot extract MetadataContext index from different key")

/-- DataContext.ConstructKey: data prefix byte, 4 instance-id bytes, the opaque
index bytes, then 4 version-id bytes. -/
def DataContext.ConstructKey (ctx : DataContext) (index : List Nat) : List Nat :=
  dataKeyByte :: (uint32Bytes ctx.instanceID ++ (index ++ uint32Bytes ctx.versionID))

/-- DataContext.IndexFromKey: reads key[0] with no length check (the empty key
panics), rejects a non-data prefix with an error, then slices
key[1+InstanceIDSize : len(key)-VersionIDSize]; when the key is shorter than
1 + InstanceIDSize + VersionIDSize the slice bounds are inverted and Go
panics. -/
def DataContext.IndexFromKey (key : List Nat) : GoResult (Except String (List Nat)) :=
  match key with
  | [] => .crash
  | b :: _ =>
      if b = dataKeyByte then
        if key.length < 1 + InstanceIDSize + VersionIDSize then .crash
        else
          .ok (.ok ((key.drop (1 + InstanceIDSize)).take
            (key.length - VersionIDSize - (1 + InstanceIDSize))))
      else .ok (.error "Cannot extract DataContext index from different key")

/-! Label index records (Meta), the per-shard access-time cache, and the block
mutation aggregation pipeline, from the labelarray package. -/

/-- Block coordinate: dvid.IZYXString is a 12-byte big-endian packing of the
signed (z, y, x) block coordinate whose string comparison equals lexicographic
(z, y, x) numeric order, so the model carries the integer triple (z, y, x)
directly. -/
abbrev IZYX := Int × Int × Int

/-- Lexicographic (z, y, x) order on block coordinates, the order of the
12-byte strings. -/
def izyxLe (a b : IZYX) : Bool :=
  if a.1 ≠ b.1 then decide (a.1 < b.1)
  else if a.2.1 ≠ b.2.1 then decide (a.2.1 < b.2.1)
  else decide (a.2.2 ≤ b.2.2)

/-- Insert an element into a list sorted by the given comparison. -/
def insertSorted (le : α → α → Bool) (x : α) : List α → List α
  | [] => [x]
  | y :: ys => if le x y then x :: y :: ys else y :: insertSorted le x ys

/-- Insertion sort by the given comparison, modelling sort.Sort (deterministic
whenever the compared keys are distinct). -/
def sortBy (le : α → α → Bool) : List α → List α
  | [] => []
  | x :: xs => insertSorted le x (sortBy le xs)

/-- Sort block coordinates in IZYX string order. -/
def sortIZYX : List IZYX → List IZYX := sortBy izyxLe

/-- Meta: per-label index record of the total voxel count (uint64,
represented as a Nat reduced modulo 2^64 by every update) and the sorted
occupied block list. -/
structure Meta where
  Voxels : Nat
  Blocks : List IZYX
deriving DecidableEq, Repr

/-- Modulus of 64-bit machine arithmetic. -/
def two64 : Int := 2 ^ 64

/-- labelDiff: change in voxel count for one block (int32) and whether the
label is present in the block after the mutation. -/
structure LabelDiff where
  delta : Int
  present : Bool
deriving DecidableEq, Repr

/-- Association-list lookup, modelling a Go map read. -/
def aget? [DecidableEq κ] : List (κ × β) → κ → Option β
  | [], _ => none
  | (k, v) :: rest, k0 => if k = k0 then some v else aget? rest k0

/-- Association-list store, modelling a Go map write: replace the existing
entry or append a new one. -/
def aset [DecidableEq κ] : List (κ × β) → κ → β → List (κ × β)
  | [], k0, v0 => [(k0, v0)]
  | (k, v) :: rest, k0, v0 =>
      if k = k0 then (k0, v0) :: rest else (k, v) :: aset rest k0 v0

/-- blockDiffMap: per-block label diffs, a Go map in iteration order. -/
abbrev BlockDiffMap := List (IZYX × LabelDiff)

/-- Modelled from the spec: dvid.IZYXSlice.Delete removes the given blocks
from the block list ("delete the newly-absent blocks"). -/
def izyxDelete (blocks absent : List IZYX) : List IZYX :=
  blocks.filter (fun b => !(absent.contains b))

/-- Modelled from the spec: dvid.IZYXSlice.Merge merges the given blocks into
the sorted block list ("merge the set of newly-present blocks into blocks"),
a sorted union without duplicates. -/
def izyxMerge (blocks present : List IZYX) : List IZYX :=
  sortIZYX (blocks ++ present.filter (fun b => !(blocks.contains b)))

/-- Meta.applyChanges: fold the per-block diffs into the Meta.  Per entry the
voxel counter is updated by m.Voxels = uint64(int64(m.Voxels) +
int64(diff.delta)), i.e. with wrap-around modulo 2^64, and the block is
collected into the present or absent list; both lists are then sorted, the
absent blocks deleted from m.Blocks and the present blocks merged in. -/
def Meta.applyChanges (m : Meta) (bdm : BlockDiffMap) : Meta :=
  let acc := bdm.foldl
    (fun (acc : Nat × List IZYX × List IZYX) e =>
      let v := (((acc.1 : Int) + e.2.delta) % two64).toNat
      if e.2.present then (v, acc.2.1 ++ [e.1], acc.2.2)
      else (v, acc.2.1, acc.2.2 ++ [e.1]))
    (m.Voxels, [], [])
  { Voxels := acc.1,
    Blocks := izyxMerge (izyxDelete m.Blocks (sortIZYX acc.2.2)) (sortIZYX acc.2.1) }

/-- timedMeta: a cache entry holding a label, its Meta, and the last access
time. -/
structure TimedMeta where
  label : Nat
  meta : Meta
  t : Nat
deriving DecidableEq, Repr

/-- MetaCache state: the capacity, the labels present in the avail map (each
mapped to the list entry carrying that label), and the entry list.  A
well-formed cache has distinct labels in the list and avail labels occurring in
the list. -/
structure MetaCache where
  size : Nat
  avail : List Nat
  list : List TimedMeta
deriving DecidableEq, Repr

/-- Default cache capacity when MakeMetaCache is given size 0. -/
def defaultCacheSize : Nat := 50

/-- MakeMetaCache: empty cache of the given capacity (default when 0). -/
def MakeMetaCache (size : Nat) : MetaCache :=
  ⟨if size = 0 then defaultCacheSize else size, [], []⟩

/-- Update the list entry carrying the given label, modelling a write through
the shared timedMeta pointer held by both the avail map and the list. -/
def touchEntry (l : List TimedMeta) (label : Nat) (f : TimedMeta → TimedMeta) :
    List TimedMeta :=
  l.map (fun tm => if tm.label = label then f tm else tm)

/-- MetaCache.GetLabelMeta: on an avail-map hit, refresh the entry's access
time through the shared pointer and return its Meta; otherwise return
nothing.  Both effects of the Go value receiver reach the caller because they
go through the shared map and entry pointers. -/
def MetaCache.GetLabelMeta (c : MetaCache) (label : Nat) (now : Nat) :
    Option Meta × MetaCache :=
  if label ∈ c.avail then
    match c.list.find? (fun tm => tm.label == label) with
    | some tm =>
        (some tm.meta,
         { c with list := touchEntry c.list label (fun e => { e with t := now }) })
    | none => (none, c)
  else (none, c)

/-- MetaCache.AddLabelMeta with Go value-receiver visibility: an avail hit
updates the shared entry (visible); on the eviction path the in-place sort,
the avail deletion and the slot overwrite all act on the shared backing array
and map (visible), the evicted slot being the LAST entry of the
ascending-by-time sort, and the new entry is never inserted into avail; on the
append path the grown slice header lives only in the method's copy of the
struct, so the caller-visible cache does not change at all. -/
def MetaCache.AddLabelMeta (c : MetaCache) (label : Nat) (meta : Meta) (now : Nat) :
    MetaCache :=
  if label ∈ c.avail then
    { c with list := touchEntry c.list label (fun e => { e with meta := meta, t := now }) }
  else
    let newtm : TimedMeta := ⟨label, meta, now⟩
    if c.list.length = c.size then
      let sorted := sortBy (fun a b => decide (a.t ≤ b.t)) c.list
      match sorted.getLast? with
      | some evicted =>
          { c with avail := c.avail.erase evicted.label,
                   list := sorted.dropLast ++ [newtm] }
      | none => c
    else c

/-- Bit flag marking label presence in the old block. -/
def presentOld : Nat := 1

/-- Bit flag marking label presence in the new block. -/
def presentNew : Nat := 2

/-- blockChange event: block coordinate, per-label presence flag map, and
per-label voxel delta map. -/
structure BlockChange where
  block : IZYX
  present : List (Nat × Nat)
  delta : List (Nat × Int)
deriving DecidableEq, Repr

/-- Merge a presence flag into the per-label flag map (bc.present[label] |=
flag). -/
def orFlag (m : List (Nat × Nat)) (label flag : Nat) : List (Nat × Nat) :=
  aset m label ((aget? m label).getD 0 ||| flag)

/-- handleIndexBlockIngest: one blockChange for an ingested block, with
presentNew set for every label of the new block data; the delta map is left
empty. -/
def handleIndexBlockIngest (block : IZYX) (newLabels : List Nat) : BlockChange :=
  ⟨block, newLabels.foldl (fun m l => orFlag m l presentNew) [], []⟩

/-- handleIndexBlockMutate: one blockChange for a mutated block, with
presentOld set for labels of the previous block and presentNew for labels of
the new block; the delta map is left empty. -/
def handleIndexBlockMutate (block : IZYX) (prevLabels newLabels : List Nat) :
    BlockChange :=
  ⟨block,
   newLabels.foldl (fun m l => orFlag m l presentNew)
     (prevLabels.foldl (fun m l => orFlag m l presentOld) []),
   []⟩

/-- labelChange routed to a label shard (shard = label % numLabelHandlers):
version, label, aggregated per-block diffs. -/
structure LabelChange where
  v : Nat
  label : Nat
  bdm : BlockDiffMap
deriving DecidableEq, Repr

/-- labelDiffMap: per-label aggregated block diffs. -/
abbrev LabelDiffMap := List (Nat × BlockDiffMap)

/-- One present-map entry of a blockChange inside aggregateBlockChanges: the
label's blockDiffMap is created when missing, and a fresh zero labelDiff gets
its present bit from the flag switch (0x01 no longer present, 0x02 new, 0x03
unchanged; any other flag writes nothing) and is stored for the block. -/
def applyPresentEntry (block : IZYX) (ldm : LabelDiffMap) (label flag : Nat) :
    LabelDiffMap :=
  let bdm := (aget? ldm label).getD []
  let bdm :=
    if flag = 1 then aset bdm block ⟨0, false⟩
    else if flag = 2 then aset bdm block ⟨0, true⟩
    else if flag = 3 then aset bdm block ⟨0, true⟩
    else bdm
  aset ldm label bdm

/-- One delta-map entry of a blockChange inside aggregateBlockChanges: the
label's blockDiffMap is created when missing; the block's labelDiff is read
into a local and its delta incremented, but the updated copy is never stored
back into the map, so the aggregated diff keeps delta 0. -/
def applyDeltaEntry (block : IZYX) (ldm : LabelDiffMap) (label : Nat) (delta : Int) :
    LabelDiffMap :=
  let bdm := (aget? ldm label).getD []
  let diff := (aget? bdm block).getD ⟨0, false⟩
  let _ := { diff with delta := diff.delta + delta }
  aset ldm label bdm

/-- Fold one blockChange into the label diff map: first the presence entries,
then the delta entries. -/
def processBlockChange (ldm : LabelDiffMap) (bc : BlockChange) : LabelDiffMap :=
  let ldm1 := bc.present.foldl (fun m e => applyPresentEntry bc.block m e.1 e.2) ldm
  bc.delta.foldl (fun m e => applyDeltaEntry bc.block m e.1 e.2) ldm1

/-- aggregateBlockChanges: consume the finite sequence of blockChanges of one
mutation, folding them into the label diff map, then emit one labelChange per
label (each sent to shard label % numLabelHandlers; the shard assignment only
serializes per-label application and is not itself modelled). -/
def aggregateBlockChanges (v : Nat) (changes : List BlockChange) : List LabelChange :=
  (changes.foldl processBlockChange []).map (fun e => ⟨v, e.1, e.2⟩)

/-- Modelled from the spec: dvid.OptionalBounds, optional per-axis lower and
upper voxel or block bounds. -/
structure OptionalBounds where
  minx : Option Int
  maxx : Option Int
  miny : Option Int
  maxy : Option Int
  minz : Option Int
  maxz : Option Int
deriving DecidableEq, Repr

/-- True when the coordinate lies below the lower or above the upper X bound. -/
def OptionalBounds.OutsideX (b : OptionalBounds) (x : Int) : Bool :=
  (match b.minx with | some m => decide (x < m) | none => false)
  || (match b.maxx with | some m => decide (m < x) | none => false)

/-- True when the coordinate lies below the lower or above the upper Y bound. -/
def OptionalBounds.OutsideY (b : OptionalBounds) (y : Int) : Bool :=
  (match b.miny with | some m => decide (y < m) | none => false)
  || (match b.maxy with | some m => decide (m < y) | none => false)

/-- True when the coordinate lies below the lower or above the upper Z bound. -/
def OptionalBounds.OutsideZ (b : OptionalBounds) (z : Int) : Bool :=
  (match b.minz with | some m => decide (z < m) | none => false)
  || (match b.maxz with | some m => decide (m < z) | none => false)

/-- True when any axis bound is set. -/
def OptionalBounds.IsSet (b : OptionalBounds) : Bool :=
  b.minx.isSome || b.maxx.isSome || b.miny.isSome || b.maxy.isSome
    || b.minz.isSome || b.maxz.isSome

/-- dvid.Bounds: optional voxel-level and block-level bounds plus the exact
flag. -/
structure Bounds where
  voxel : OptionalBounds
  block : OptionalBounds
  exact : Bool
deriving DecidableEq, Repr

/-- The empty bounds (dvid.Bounds zero value). -/
def noBounds : Bounds :=
  ⟨⟨none, none, none, none, none, none⟩, ⟨none, none, none, none, none, none⟩, false⟩

/-- Modelled from the spec: dvid.IZYXSlice.FitToBounds clips the block list to
the block bounds. -/
def fitToBounds (blocks : List IZYX) (b : OptionalBounds) : List IZYX :=
  blocks.filter (fun c => !(b.OutsideX c.2.2 || b.OutsideY c.2.1 || b.OutsideZ c.1))

/-- The store of per-label index records, keyed by NewLabelIndexTKey(label);
values are kept at the Meta level (serialization and LZ4 compression are the
storage envelope). -/
abbrev LabelIndexStore := List (Nat × Meta)

/-- Data.GetLabelMeta: union the stored Meta of the given label set.  A
missing label contributes nothing (its absent value deserializes to an empty
payload, which is skipped); with exactly one label the stored blocks and voxel
count are taken as is, even when the block list is empty; with several labels
only records with non-empty block lists contribute, the voxel counts adding
with uint64 wrap-around and the block lists merging.  When block bounds are
set the blocks are clipped to them and the voxel count is reported as 0. -/
def Data.GetLabelMeta (store : LabelIndexStore) (lbls : List Nat) (bounds : Bounds) :
    Meta :=
  let acc := lbls.foldl
    (fun (acc : Nat × List IZYX) label =>
      match aget? store label with
      | none => acc
      | some m =>
          if lbls.length = 1 then (m.Voxels, m.Blocks)
          else if 0 < m.Blocks.length then
            ((((acc.1 : Int) + (m.Voxels : Int)) % two64).toNat,
             izyxMerge acc.2 m.Blocks)
          else acc)
    (0, [])
  if bounds.block.IsSet then ⟨0, fitToBounds acc.2 bounds.block⟩
  else ⟨acc.1, acc.2⟩

/-- PutLabelMeta: serialize, LZ4-compress and write the Meta under the label
index key; at the store-model level, a plain write of the record. -/
def PutLabelMeta (store : LabelIndexStore) (label : Nat) (meta : Meta) :
    LabelIndexStore :=
  aset store label meta

/-- One iteration of the indexLabels label worker: look the label up in the
cache, else load it through Data.GetLabelMeta with the single label and no
bounds; apply the aggregated diffs; add the result to the cache; and put it
back to the store — the record is written back unconditionally, also when the
diffs left the block list empty. -/
def indexLabelsStep (store : LabelIndexStore) (cache : MetaCache) (lc : LabelChange)
    (now : Nat) : LabelIndexStore × MetaCache :=
  let hit := MetaCache.GetLabelMeta cache lc.label now
  let meta :=
    match hit.1 with
    | some m => m
    | none => Data.GetLabelMeta store [lc.label] noBounds
  let newMeta := meta.applyChanges lc.bdm
  (PutLabelMeta store lc.label newMeta,
   MetaCache.AddLabelMeta hit.2 lc.label newMeta now)

/-- The indexLabels worker loop over a finite queue of label changes, the
clock advancing at each step for the time.Now() stamps. -/
def indexLabels : LabelIndexStore × MetaCache → List LabelChange → Nat →
    LabelIndexStore × MetaCache
  | sc, [], _ => sc
  | (store, cache), lc :: rest, now =>
      indexLabels (indexLabelsStep store cache lc now) rest (now + 1)

/-! Sparse-volume reconstruction: RLE scanning of a block (addRLEs and
addBoundedRLEs), and the retrieval entry points. -/

/-- One run of the sparse-volume wire format: i32 x, i32 y, i32 z, i32 length,
the run extending along X.  The length is kept as a Nat: it only ever counts
up from 0 within one row. -/
structure RLERun where
  x : Int
  y : Int
  z : Int
  len : Nat
deriving DecidableEq, Repr

/-- State of the RLE scan of a block: the runs written to the buffer so far,
the start point of the open span, and the open span's length (spanRun, 0 when
no span is open). -/
structure ScanState where
  runs : List RLERun
  spanStart : Int × Int × Int
  spanRun : Nat
deriving DecidableEq, Repr

/-- Scan state at the start of addRLEs and addBoundedRLEs. -/
def initScan : ScanState := ⟨[], (0, 0, 0), 0⟩

/-- Body of the inner x loop shared by addRLEs and addBoundedRLEs: good x
label decides span membership (for addRLEs, the label is non-zero and in the
requested set; addBoundedRLEs additionally requires x inside the voxel
bounds).  A good voxel starts a span (spanRun++ then spanStart when spanRun
becomes 1) or extends it; a bad voxel closes any open span by writing the
run. -/
def scanVoxel (good : Int → Nat → Bool) (y z x : Int) (label : Nat) (s : ScanState) :
    ScanState :=
  if good x label then
    if s.spanRun = 0 then { s with spanStart := (x, y, z), spanRun := 1 }
    else { s with spanRun := s.spanRun + 1 }
  else if 0 < s.spanRun then
    { runs := s.runs ++ [⟨s.spanStart.1, s.spanStart.2.1, s.spanStart.2.2, s.spanRun⟩],
      spanStart := s.spanStart, spanRun := 0 }
  else s

/-- The x scan of one row of voxel labels, x starting at the given
coordinate. -/
def scanRowAux (good : Int → Nat → Bool) (y z : Int) :
    Int → List Nat → ScanState → ScanState
  | _, [], s => s
  | x, l :: rest, s => scanRowAux good y z (x + 1) rest (scanVoxel good y z x l s)

/-- Force the break of any open run when the x scan of a row finishes. -/
def endRow (s : ScanState) : ScanState :=
  if 0 < s.spanRun then
    { runs := s.runs ++ [⟨s.spanStart.1, s.spanStart.2.1, s.spanStart.2.2, s.spanRun⟩],
      spanStart := s.spanStart, spanRun := 0 }
  else s

/-- Scan one row: the x loop followed by the forced run break. -/
def scanRow (good : Int → Nat → Bool) (y z x0 : Int) (row : List Nat)
    (s : ScanState) : ScanState :=
  endRow (scanRowAux good y z x0 row s)

/-- Scan the ny rows of one z plane, the data cursor advancing one row (nx
labels) per row; a row whose y coordinate is outside the bounds advances the
cursor without scanning (start += yskip; addRLEs skips no row). -/
def scanPlane (good : Int → Nat → Bool) (rowSkip : Int → Bool) (z x0 : Int)
    (nx : Nat) : Int → Nat → List Nat → ScanState → ScanState
  | _, 0, _, s => s
  | y, ny + 1, data, s =>
      if rowSkip y then scanPlane good rowSkip z x0 nx (y + 1) ny (data.drop nx) s
      else scanPlane good rowSkip z x0 nx (y + 1) ny (data.drop nx)
             (scanRow good y z x0 (data.take nx) s)

/-- Scan the nz planes of a block, the cursor advancing one plane (ny times nx
labels) per plane; a plane whose z coordinate is outside the bounds advances
the cursor without scanning (start += zskip; addRLEs skips no plane). -/
def scanVolume (good : Int → Nat → Bool) (rowSkip planeSkip : Int → Bool)
    (y0 x0 : Int) (nx ny : Nat) : Int → Nat → List Nat → ScanState → ScanState
  | _, 0, _, s => s
  | z, nz + 1, data, s =>
      if planeSkip z then
        scanVolume good rowSkip planeSkip y0 x0 nx ny (z + 1) nz (data.drop (ny * nx)) s
      else
        scanVolume good rowSkip planeSkip y0 x0 nx ny (z + 1) nz (data.drop (ny * nx))
          (scanPlane good rowSkip z x0 nx y0 ny data s)

/-- addRLEs: check the deserialized block has exactly BlockSize().Prod()
voxels (the Go byte length divided by 8 — the data here is the list of uint64
voxel labels in z, y, x scan order), derive the block's voxel extents from its
coordinate, and scan it, emitting runs for voxels whose non-zero label is in
lbls.  The block size bs is the (x, y, z) extents. -/
def addRLEs (bs : Nat × Nat × Nat) (izyx : IZYX) (data : List Nat)
    (lbls : List Nat) : Except String (List RLERun) :=
  if data.length ≠ bs.1 * bs.2.1 * bs.2.2 then
    .error "Deserialized label block is not uint64 size times block elements"
  else
    .ok (scanVolume (fun _ l => decide (l ≠ 0) && lbls.contains l)
          (fun _ => false) (fun _ => false)
          (izyx.2.1 * (bs.2.1 : Int)) (izyx.2.2 * (bs.1 : Int)) bs.1 bs.2.1
          (izyx.1 * (bs.2.2 : Int)) bs.2.2 data initScan).runs

/-- addBoundedRLEs: like addRLEs but skipping planes and rows outside the Z
and Y voxel bounds and treating voxels outside the X bound as outside the
span. -/
def addBoundedRLEs (bs : Nat × Nat × Nat) (izyx : IZYX) (data : List Nat)
    (lbls : List Nat) (bounds : OptionalBounds) : Except String (List RLERun) :=
  if data.length ≠ bs.1 * bs.2.1 * bs.2.2 then
    .error "Deserialized label block is not uint64 size times block elements"
  else
    .ok (scanVolume
          (fun x l => decide (l ≠ 0) && lbls.contains l && !(bounds.OutsideX x))
          (fun y => bounds.OutsideY y) (fun z => bounds.OutsideZ z)
          (izyx.2.1 * (bs.2.1 : Int)) (izyx.2.2 * (bs.1 : Int)) bs.1 bs.2.1
          (izyx.1 * (bs.2.2 : Int)) bs.2.2 data initScan).runs

/-- The row of voxel labels at plane iz, row iy of a block data list, for row
length nx and plane size ny * nx. -/
def rowOf (data : List Nat) (nx ny iz iy : Nat) : List Nat :=
  (data.drop (iz * (ny * nx) + iy * nx)).take nx

/-- Read a row as a function from the voxel x coordinate (x0 being the row's
first coordinate) to its label. -/
def rowLabelAt (row : List Nat) (x0 : Int) : Int → Option Nat :=
  fun xi => row.get? (xi - x0).toNat

/-- A run is confined to the row (y, z) whose labels labelAt gives: correct y
and z, positive length, x range inside [x0, xEnd), and every covered voxel
accepted by the span predicate. -/
def runOk (good : Int → Nat → Bool) (labelAt : Int → Option Nat)
    (y z x0 xEnd : Int) (r : RLERun) : Prop :=
  r.y = y ∧ r.z = z ∧ 1 ≤ r.len ∧ x0 ≤ r.x ∧ r.x + r.len ≤ xEnd ∧
  ∀ j : Nat, j < r.len →
    ∃ l, labelAt (r.x + j) = some l ∧ good (r.x + j) l = true

/-- Scan invariant for the open span at cursor position x of the row starting
at x0: the span length never exceeds the scanned prefix, and an open span
starts spanRun voxels back with every covered voxel accepted. -/
def openInv (good : Int → Nat → Bool) (labelAt : Int → Option Nat)
    (y z x0 x : Int) (s : ScanState) : Prop :=
  x0 ≤ x ∧ (s.spanRun : Int) ≤ x - x0 ∧
  (0 < s.spanRun →
    s.spanStart = (x - s.spanRun, y, z) ∧
    ∀ j : Nat, j < s.spanRun →
      ∃ l, labelAt (x - s.spanRun + j) = some l ∧ good (x - s.spanRun + j) l = true)

/-- The property claimed of every emitted run, phrased against the block's
row contents: the run lies in a single row (iy, iz) of the block, starts no
earlier than the row, ends within the row (so its length is at most the
block's x extent), and covers only voxels whose non-zero label is in the
requested label set. -/
def runInRow (lbls : List Nat) (x0 : Int) (nx : Nat) (y z : Int)
    (row : List Nat) (r : RLERun) : Prop :=
  r.y = y ∧ r.z = z ∧ 1 ≤ r.len ∧ r.len ≤ nx ∧ x0 ≤ r.x ∧ r.x + r.len ≤ x0 + nx ∧
  ∀ j : Nat, j < r.len →
    ∃ l, row.get? ((r.x - x0).toNat + j) = some l ∧ l ≠ 0 ∧ l ∈ lbls

/-! Sparse-volume retrieval entry points. -/

/-- The sparse-volume payload behind the serialized bytes: the fixed header
(encoding byte 0, 3 dimensions, run dimension X, reserved byte, uint32
placeholder written as 0) with the span count backfilled into the second
placeholder, followed by the 16-byte runs. -/
structure SparseVolPayload where
  numSpans : Nat
  runs : List RLERun
deriving DecidableEq, Repr

/-- Modelled from the spec: the merge mapping service (labels.LabelMap).
FinalLabel(l) is defined exactly when l has been merged away, yielding the
current representative; ConstituentLabels(l) yields every label now mapping
to l, including l itself. -/
structure LabelMap where
  finalLabel : Nat → Option Nat
  constituents : Nat → List Nat

/-- True when a lower or upper X bound is set. -/
def OptionalBounds.BoundedX (b : OptionalBounds) : Bool :=
  b.minx.isSome || b.maxx.isSome

/-- True when a lower or upper Y bound is set. -/
def OptionalBounds.BoundedY (b : OptionalBounds) : Bool :=
  b.miny.isSome || b.maxy.isSome

/-- True when a lower or upper Z bound is set. -/
def OptionalBounds.BoundedZ (b : OptionalBounds) : Bool :=
  b.minz.isSome || b.maxz.isSome

/-- Modelled from the spec: dvid.IZYXSlice.WriteSerializedRLEs emits one run
per contiguous span of the sorted block list (same z and y, consecutive x),
in block coordinates. -/
def coarseAux (x y z : Int) (len : Nat) : List IZYX → List RLERun
  | [] => [⟨x, y, z, len⟩]
  | b :: rest =>
      if b.1 = z ∧ b.2.1 = y ∧ b.2.2 = x + len then coarseAux x y z (len + 1) rest
      else ⟨x, y, z, len⟩ :: coarseAux b.2.2 b.2.1 b.1 1 rest

/-- Runs of contiguous block spans for the coarse sparse volume. -/
def coarseRLEs : List IZYX → List RLERun
  | [] => []
  | b :: rest => coarseAux b.2.2 b.2.1 b.1 1 rest

/-- GetSparseCoarseVol: a label the mapping reports as already merged away
returns a nil payload with a nil error, before any store access; otherwise
the constituent labels' Meta is read and the header plus one run per
contiguous block span emitted.  (The only error returns propagate store
failures, which the store model cannot produce.) -/
def GetSparseCoarseVol (store : LabelIndexStore) (mapping : Option LabelMap)
    (label : Nat) (bounds : Bounds) : Option SparseVolPayload :=
  match mapping with
  | some mp =>
      if (mp.finalLabel label).isSome then none
      else
        let meta := Data.GetLabelMeta store (mp.constituents label) bounds
        some ⟨(coarseRLEs meta.Blocks).length, coarseRLEs meta.Blocks⟩
  | none =>
      let meta := Data.GetLabelMeta store [label] bounds
      some ⟨(coarseRLEs meta.Blocks).length, coarseRLEs meta.Blocks⟩

/-- GetMappedLabelMeta: when the merge mapping reports the label as merged
away, return through the named zero results — nil Meta pointer, nil label
set, nil error; otherwise resolve the constituent set and read its union
Meta. -/
def Data.GetMappedLabelMeta (store : LabelIndexStore) (mapping : Option LabelMap)
    (label : Nat) (bounds : Bounds) : Option Meta × List Nat :=
  match mapping with
  | some mp =>
      if (mp.finalLabel label).isSome then (none, [])
      else (some (Data.GetLabelMeta store (mp.constituents label) bounds),
            mp.constituents label)
  | none => (some (Data.GetLabelMeta store [label] bounds), [label])

/-- processBlocksToRLEs, per block: deserialize the block, materialize its
voxel array (the blockData oracle, standing in for the block codec) and run
addRLEs, or addBoundedRLEs under exact voxel bounds; a decode or size error
is logged and contributes zero runs. -/
def processBlockToRLE (bs : Nat × Nat × Nat) (blockData : IZYX → List Nat)
    (lbls : List Nat) (bounds : Bounds) (izyx : IZYX) : List RLERun :=
  match (if bounds.exact && bounds.voxel.IsSet then
           addBoundedRLEs bs izyx (blockData izyx) lbls bounds.voxel
         else addRLEs bs izyx (blockData izyx) lbls) with
  | .ok runs => runs
  | .error _ => []

/-- getLegacySlowRLEs: write the header, clip the Meta's block list by the X
and Y block bounds, return a nil payload when no block or no run survives,
else backfill the span count.  The block list is read through the Meta
pointer (len(meta.Blocks)), so the nil Meta of a merged-away label is a
nil-pointer dereference. -/
def getLegacySlowRLEs (bs : Nat × Nat × Nat) (blockData : IZYX → List Nat)
    (meta : Option Meta) (lbls : List Nat) (bounds : Bounds) :
    GoResult (Option SparseVolPayload) :=
  match meta with
  | none => .crash
  | some m =>
      let indices := m.Blocks.filter (fun izyx =>
        !((bounds.block.BoundedX || bounds.block.BoundedY)
          && (bounds.block.OutsideX izyx.2.2 || bounds.block.OutsideY izyx.2.1)))
      if indices.length = 0 then .ok none
      else
        let runs := indices.foldl
          (fun acc izyx => acc ++ processBlockToRLE bs blockData lbls bounds izyx) []
        if runs.length = 0 then .ok none
        else .ok (some ⟨runs.length, runs⟩)

/-- getLegacyRLEs: like getLegacySlowRLEs but clipping also by the Z block
bound and streaming the compressed blocks through labels.WriteRLEs, a package
external to this repository whose per-block output is the blockRLEs oracle.
It reads len(meta.Blocks) as well, so a nil Meta is a nil-pointer
dereference. -/
def getLegacyRLEs (blockRLEs : IZYX → List RLERun) (meta : Option Meta)
    (bounds : Bounds) : GoResult (Option SparseVolPayload) :=
  match meta with
  | none => .crash
  | some m =>
      let indices := m.Blocks.filter (fun izyx =>
        !((bounds.block.BoundedX || bounds.block.BoundedY || bounds.block.BoundedZ)
          && (bounds.block.OutsideX izyx.2.2 || bounds.block.OutsideY izyx.2.1
              || bounds.block.OutsideZ izyx.1)))
      if indices.length = 0 then .ok none
      else
        let runs := indices.foldl (fun acc izyx => acc ++ blockRLEs izyx) []
        if runs.length = 0 then .ok none
        else .ok (some ⟨runs.length, runs⟩)

/-- GetLegacyRLE: resolve the mapped label Meta through GetMappedLabelMeta,
then compute the encoded sparse volume with the slow (label volume) or fast
(compressed block) path; both paths dereference the returned Meta pointer,
which is nil for a merged-away label. -/
def GetLegacyRLE (bs : Nat × Nat × Nat) (blockData : IZYX → List Nat)
    (blockRLEs : IZYX → List RLERun) (store : LabelIndexStore)
    (mapping : Option LabelMap) (label : Nat) (bounds : Bounds) (old : Bool) :
    GoResult (Option SparseVolPayload) :=
  let mr := Data.GetMappedLabelMeta store mapping label bounds
  if old then getLegacySlowRLEs bs blockData mr.1 mr.2 bounds
  else getLegacyRLEs blockRLEs mr.1 bounds

/-- Concrete merge mapping with label 1 merged away into label 2. -/
def mergedMap : LabelMap :=
  ⟨fun l => if l = 1 then some 2 else none, fun l => [l]⟩

/-! The labels64 PUT entry point. -/

/-- PUT geometry of a submitted subvolume: its minimum and maximum voxel
points (vox.StartPoint and vox.EndPoint), each (x, y, z). -/
structure VoxelsGeom where
  startPt : Int × Int × Int
  endPt : Int × Int × Int
deriving DecidableEq, Repr

/-- Modelled from the spec: dvid.BlockAligned holds when the PUT geometry
begins and ends exactly on block boundaries of the instance's block size. -/
def BlockAligned (vox : VoxelsGeom) (bs : Nat × Nat × Nat) : Bool :=
  decide (vox.startPt.1 % (bs.1 : Int) = 0)
    && decide (vox.startPt.2.1 % (bs.2.1 : Int) = 0)
    && decide (vox.startPt.2.2 % (bs.2.2 : Int) = 0)
    && decide ((vox.endPt.1 + 1) % (bs.1 : Int) = 0)
    && decide ((vox.endPt.2.1 + 1) % (bs.2.1 : Int) = 0)
    && decide ((vox.endPt.2.2 + 1) % (bs.2.2 : Int) = 0)

/-- Closed integer range as a list. -/
def intRange (a b : Int) : List Int :=
  (List.range (b + 1 - a).toNat).map (fun i => a + i)

/-- Block coordinates covered by an aligned PUT region, in the z, y, x
iteration order of the index iterator. -/
def blockCoords (vox : VoxelsGeom) (bs : Nat × Nat × Nat) : List IZYX :=
  (intRange (vox.startPt.2.2 / (bs.2.2 : Int)) (vox.endPt.2.2 / (bs.2.2 : Int))).flatMap
    (fun z => (intRange (vox.startPt.2.1 / (bs.2.1 : Int)) (vox.endPt.2.1 / (bs.2.1 : Int))).flatMap
      (fun y => (intRange (vox.startPt.1 / (bs.1 : Int)) (vox.endPt.1 / (bs.1 : Int))).map
        (fun x => ((z, y, x) : IZYX))))

/-- Block store of a labels64 instance; the written block payloads are
abstracted to the mutation id that last wrote them. -/
abbrev BlockStore := List (IZYX × Nat)

/-- PutVoxels: a non-block-aligned geometry is rejected with an error before
any write, any blockChange emission or any label index update; an aligned PUT
walks every covered block in z, y, x order, persists the block and emits
exactly one blockChange per block through handleIndexBlockIngest (or
handleIndexBlockMutate when mutating), the per-block label sets of the new
and previous payloads supplied by the labelsOf and prevLabelsOf oracles
standing in for the block codec. -/
def PutVoxels (labelsOf prevLabelsOf : IZYX → List Nat) (store : BlockStore)
    (vox : VoxelsGeom) (bs : Nat × Nat × Nat) (mutID : Nat) (mutate : Bool) :
    Except String (BlockStore × List BlockChange) :=
  if !(BlockAligned vox bs) then
    .error "cannot store voxels in non-block aligned geometry"
  else
    .ok ((blockCoords vox bs).foldl
      (fun (acc : BlockStore × List BlockChange) c =>
        (aset acc.1 c mutID,
         acc.2 ++ [if mutate then handleIndexBlockMutate c (prevLabelsOf c) (labelsOf c)
                   else handleIndexBlockIngest c (labelsOf c)]))
      (store, []))

/-- Claim C5: the data-key layout round-trips: IndexFromKey recovers exactly
the index bytes from ConstructKey, with no error, for every context and every
index byte string. -/
theorem dataKey_roundTrip (ctx : DataContext) (index : List Nat) :
    DataContext.IndexFromKey (ctx.ConstructKey index) = .ok (.ok index) := by
  unfold DataContext.IndexFromKey DataContext.ConstructKey
  simp only [uint32Bytes, dataKeyByte, InstanceIDSize, VersionIDSize]
  simp [List.length_append]

/-- Claim C9 counterexample: the claim asserts that every key shorter than
1 + InstanceIDSize + VersionIDSize causes an out-of-bounds access in
DataContext.IndexFromKey; but a short non-empty key whose first byte is not the
data prefix is rejected with the wrong-keyspace error and never reaches the
slicing, so no out-of-bounds access happens. -/
theorem indexFromKey_short_key_no_crash :
    DataContext.IndexFromKey [metadataKeyByte]
      = .ok (.error "Cannot extract DataContext index from different key") := by
  rfl

/-- Claim C9 (amended): IndexFromKey is total only under a key-length
precondition.  MetadataContext.IndexFromKey returns a value (index or
wrong-keyspace error) for every key of length at least 1, and
DataContext.IndexFromKey for every key of length at least
1 + InstanceIDSize + VersionIDSize; the empty key panics in both contexts, and
a shorter data key panics when its first byte matches the data prefix (a short
key with a non-matching first byte still returns the wrong-keyspace error). -/
theorem indexFromKey_total_with_length :
    (∀ key : List Nat, 1 ≤ key.length → ∃ r, MetadataContext.IndexFromKey key = .ok r)
    ∧ (∀ key : List Nat, 1 + InstanceIDSize + VersionIDSize ≤ key.length →
        ∃ r, DataContext.IndexFromKey key = .ok r)
    ∧ MetadataContext.IndexFromKey [] = .crash
    ∧ DataContext.IndexFromKey [] = .crash
    ∧ (∀ key : List Nat, key.length < 1 + InstanceIDSize + VersionIDSize →
        key.head? = some dataKeyByte → DataContext.IndexFromKey key = .crash) := by
  refine ⟨?_, ?_, rfl, rfl, ?_⟩
  · intro key h
    match key with
    | b :: rest =>
      by_cases hb : b = metadataKeyByte
      · exact ⟨.ok rest, by simp [MetadataContext.IndexFromKey, hb]⟩
      · exact ⟨.error "Cannot extract MetadataContext index from different key",
          by simp [MetadataContext.IndexFromKey, hb]⟩
  · intro key h
    match key with
    | b :: rest =>
      by_cases hb : b = dataKeyByte
      · subst hb
        refine ⟨.ok (((dataKeyByte :: rest).drop (1 + InstanceIDSize)).take
          ((dataKeyByte :: rest).length - VersionIDSize - (1 + InstanceIDSize))), ?_⟩
        simp only [DataContext.IndexFromKey, if_true]
        rw [if_neg (by simp only [InstanceIDSize, VersionIDSize] at h ⊢; omega)]
      · exact ⟨.error "Cannot extract DataContext index from different key",
          by simp [DataContext.IndexFromKey, hb]⟩
  · intro key hlen hhead
    match key with
    | b :: rest =>
      simp only [List.head?] at hhead
      have hb : b = dataKeyByte := by exact Option.some_injective _ hhead
      simp only [DataContext.IndexFromKey, hb, if_true]
      rw [if_pos (by simpa using hlen)]

/-- Witness for the C9 amended theorem: concrete keys of each kind. -/
theorem indexFromKey_total_with_length_witness :
    (∃ r, MetadataContext.IndexFromKey [0, 7] = .ok r)
    ∧ (∃ r, DataContext.IndexFromKey [1, 0, 0, 0, 0, 7, 0, 0, 0, 0] = .ok r)
    ∧ DataContext.IndexFromKey [1, 0, 0] = .crash :=
  ⟨indexFromKey_total_with_length.1 [0, 7] (by simp),
   indexFromKey_total_with_length.2.1 [1, 0, 0, 0, 0, 7, 0, 0, 0, 0] (by simp [InstanceIDSize, VersionIDSize]),
   indexFromKey_total_with_length.2.2.2.2 [1, 0, 0]
     (by simp [InstanceIDSize, VersionIDSize]) (by simp [dataKeyByte])⟩

/-- Association-list helper: a store just written at key k reads back the
written value. -/
theorem aget?_aset [DecidableEq κ] (m : List (κ × β)) (k : κ) (v : β) :
    aget? (aset m k v) k = some v := by
  induction m with
  | nil => simp [aset, aget?]
  | cons e rest ih =>
      cases e with
      | mk k1 v1 =>
        by_cases h : k1 = k
        · simp [aset, aget?, h]
        · simp [aset, aget?, h, ih]

/-- Association-list helper: every entry after a write comes from the old
entries or is the written pair. -/
theorem mem_aset [DecidableEq κ] (m : List (κ × β)) (k : κ) (v : β) :
    ∀ x ∈ aset m k v, x ∈ m ∨ x = (k, v) := by
  induction m with
  | nil => intro x hx; simp [aset] at hx; simp [hx]
  | cons e rest ih =>
      intro x hx
      cases e with
      | mk k1 v1 =>
        by_cases h : k1 = k
        · simp only [aset, if_pos h, List.mem_cons] at hx
          rcases hx with hx | hx
          · right; exact hx
          · left; exact List.mem_cons_of_mem _ hx
        · simp only [aset, if_neg h, List.mem_cons] at hx
          rcases hx with hx | hx
          · left; simp [hx]
          · rcases ih x hx with h1 | h1
            · left; exact List.mem_cons_of_mem _ h1
            · right; exact h1

/-- Association-list helper: a successful lookup returns a stored entry. -/
theorem mem_of_aget? [DecidableEq κ] (m : List (κ × β)) (k : κ) (b : β) :
    aget? m k = some b → (k, b) ∈ m := by
  induction m with
  | nil => intro h; simp [aget?] at h
  | cons e rest ih =>
      intro h
      cases e with
      | mk k1 v1 =>
        by_cases hk : k1 = k
        · subst hk
          simp only [aget?, if_pos rfl] at h
          have hb : v1 = b := by injection h
          subst hb
          exact List.mem_cons_self _ _
        · simp only [aget?, if_neg hk] at h
          exact List.mem_cons_of_mem _ (ih h)

/-- A fold preserves any invariant its step preserves. -/
theorem foldl_invariant {α β : Type} {P : α → Prop} (f : α → β → α)
    (h : ∀ a b, P a → P (f a b)) :
    ∀ (l : List β) (a : α), P a → P (l.foldl f a) := by
  intro l
  induction l with
  | nil => intro a ha; simpa using ha
  | cons b t ih => intro a ha; simpa using ih (f a b) (h a b ha)

/-- Every labelDiff reachable in the aggregated label diff map has delta 0:
the presence switch stores fresh zero diffs and the delta loop never writes
its updated local back. -/
def zeroDeltas (ldm : LabelDiffMap) : Prop :=
  ∀ p ∈ ldm, ∀ e ∈ p.2, e.2.delta = 0

/-- applyPresentEntry keeps every aggregated delta at 0. -/
theorem applyPresentEntry_zeroDeltas (block : IZYX) (ldm : LabelDiffMap)
    (label flag : Nat) (h : zeroDeltas ldm) :
    zeroDeltas (applyPresentEntry block ldm label flag) := by
  intro p hp e he
  unfold applyPresentEntry at hp
  rcases mem_aset _ _ _ p hp with hold | hnew
  · exact h p hold e he
  · subst hnew
    have hbdm : ∀ x ∈ (aget? ldm label).getD [], x.2.delta = 0 := by
      intro x hx
      cases hb : aget? ldm label with
      | none => simp [hb] at hx
      | some bdm0 =>
          simp only [hb, Option.getD_some] at hx
          exact h (label, bdm0) (mem_of_aget? _ _ _ hb) x hx
    by_cases h1 : flag = 1
    · simp only [h1] at he
      rcases mem_aset _ _ _ e he with hold | hnew
      · exact hbdm e hold
      · simp [hnew]
    · by_cases h2 : flag = 2
      · simp only [h2] at he
        rcases mem_aset _ _ _ e he with hold | hnew
        · exact hbdm e hold
        · simp [hnew]
      · by_cases h3 : flag = 3
        · simp only [h3] at he
          rcases mem_aset _ _ _ e he with hold | hnew
          · exact hbdm e hold
          · simp [hnew]
        · simp only [if_neg h1, if_neg h2, if_neg h3] at he
          exact hbdm e he

/-- applyDeltaEntry keeps every aggregated delta at 0 (it stores the label's
block diff map unchanged). -/
theorem applyDeltaEntry_zeroDeltas (block : IZYX) (ldm : LabelDiffMap)
    (label : Nat) (delta : Int) (h : zeroDeltas ldm) :
    zeroDeltas (applyDeltaEntry block ldm label delta) := by
  intro p hp e he
  unfold applyDeltaEntry at hp
  rcases mem_aset _ _ _ p hp with hold | hnew
  · exact h p hold e he
  · subst hnew
    cases hb : aget? ldm label with
    | none => simp [hb] at he
    | some bdm0 =>
        simp only [hb, Option.getD_some] at he
        exact h (label, bdm0) (mem_of_aget? _ _ _ hb) e he

/-- Every labelChange emitted by aggregateBlockChanges carries only zero
deltas, whatever blockChange sequence was consumed. -/
theorem aggregate_deltas_all_zero (v : Nat) (changes : List BlockChange) :
    ∀ lc ∈ aggregateBlockChanges v changes, ∀ e ∈ lc.bdm, e.2.delta = 0 := by
  have hmain : zeroDeltas (changes.foldl processBlockChange []) := by
    refine foldl_invariant processBlockChange ?_ changes [] ?_
    · intro ldm bc hz
      unfold processBlockChange
      refine foldl_invariant _ ?_ bc.delta _ ?_
      · intro m e hm
        exact applyDeltaEntry_zeroDeltas bc.block m e.1 e.2 hm
      · refine foldl_invariant _ ?_ bc.present _ ?_
        · intro m e hm
          exact applyPresentEntry_zeroDeltas bc.block m e.1 e.2 hm
        · exact hz
    · intro p hp; simp at hp
  intro lc hlc e he
  unfold aggregateBlockChanges at hlc
  rcases List.mem_map.mp hlc with ⟨p, hp, hpe⟩
  have := hmain p hp
  subst hpe
  exact this e he

/-- Claim C1 (code bug, failing input): a PUT whose block task reports a
voxel delta of +5 for label 1 leaves the aggregated diff with delta 0 — the
aggregator reads the labelDiff, adds the delta into a local copy and never
stores it back, and the ingest and mutate emitters never populate the delta
map at all — so the label worker stores the prior voxel count 10 unchanged
where the claim requires 10 + 5 = 15. -/
theorem aggregatorDropsDeltas_failing_input :
    aggregateBlockChanges 0 [⟨(0, 0, 0), [(1, 2)], [(1, 5)]⟩]
      = [⟨0, 1, [((0, 0, 0), ⟨0, true⟩)]⟩]
    ∧ (indexLabels ([(1, ⟨10, [(0, 0, 0)]⟩)], MakeMetaCache 100)
        (aggregateBlockChanges 0 [⟨(0, 0, 0), [(1, 2)], [(1, 5)]⟩]) 0).1
      = [(1, ⟨10, [(0, 0, 0)]⟩)] :=
  ⟨rfl, rfl⟩

/-- Claim C2 (code bug, failing input): on a full cache holding label 1 with
access time 10 and label 2 with access time 20, inserting label 3 sorts the
entries ascending by time and then evicts the LAST one — label 2, the most
recently accessed — while the oldest entry, label 1, survives; the claim
requires the oldest entry to be the one evicted. -/
theorem addLabelMeta_evicts_newest :
    MetaCache.AddLabelMeta ⟨2, [1, 2], [⟨1, ⟨1, []⟩, 10⟩, ⟨2, ⟨2, []⟩, 20⟩]⟩ 3 ⟨3, []⟩ 30
      = ⟨2, [1], [⟨1, ⟨1, []⟩, 10⟩, ⟨3, ⟨3, []⟩, 30⟩]⟩ :=
  rfl

/-- Claim C3 (code bug, failing input): adding label 7 to a fresh cache and
looking it up returns nothing — AddLabelMeta never inserts the new label into
the avail map (and its value receiver loses the list append entirely) while
GetLabelMeta consults only the avail map, so a miss-then-insert never turns
later lookups into hits. -/
theorem addLabelMeta_not_visible_to_get :
    (MetaCache.GetLabelMeta (MetaCache.AddLabelMeta (MakeMetaCache 2) 7 ⟨1, []⟩ 1) 7 2).1
      = none :=
  rfl

/-- Claim C4 counterexample: a LabelChange that removes label 1's only block
(with delta -5 against 5 stored voxels) leaves Meta.Blocks empty, yet the
label worker still writes the record back: the store afterwards holds the
empty-blocks Meta for label 1 instead of having the record removed. -/
theorem emptyBlocks_meta_still_persisted :
    (indexLabelsStep [(1, ⟨5, [(0, 0, 0)]⟩)] (MakeMetaCache 100)
        ⟨0, 1, [((0, 0, 0), ⟨-5, false⟩)]⟩ 0).1
      = [(1, ⟨0, []⟩)] :=
  rfl

/-- Claim C4 (amended): after the label worker applies a mutation's
LabelChange, the label's Meta record is always written back to the store, even
when applying the diffs leaves the block list empty; the index record is never
removed. -/
theorem indexLabels_always_writes_back (store : LabelIndexStore) (cache : MetaCache)
    (lc : LabelChange) (now : Nat) :
    aget? (indexLabelsStep store cache lc now).1 lc.label
      = some ((match (MetaCache.GetLabelMeta cache lc.label now).1 with
               | some m => m
               | none => Data.GetLabelMeta store [lc.label] noBounds).applyChanges lc.bdm) := by
  unfold indexLabelsStep PutLabelMeta
  exact aget?_aset store lc.label _

/-- The first component of the applyChanges fold is the running voxel count,
reduced modulo 2^64 at every step; over the whole fold it equals the initial
count plus the sum of all deltas, modulo 2^64. -/
theorem applyChanges_fold_voxels :
    ∀ (bdm : BlockDiffMap) (v : Nat) (p a : List IZYX), (v : Int) < two64 →
    ((bdm.foldl
        (fun (acc : Nat × List IZYX × List IZYX) e =>
          if e.2.present then
            ((((acc.1 : Int) + e.2.delta) % two64).toNat, acc.2.1 ++ [e.1], acc.2.2)
          else
            ((((acc.1 : Int) + e.2.delta) % two64).toNat, acc.2.1, acc.2.2 ++ [e.1]))
        (v, p, a)).1 : Int)
      = ((v : Int) + (bdm.map (fun e => e.2.delta)).sum) % two64 := by
  intro bdm
  induction bdm with
  | nil =>
      intro v p a hv
      simp only [List.foldl_nil, List.map_nil, List.sum_nil, Int.add_zero]
      exact (Int.emod_eq_of_lt (by positivity) hv).symm
  | cons e rest ih =>
      intro v p a hv
      simp only [List.foldl_cons, List.map_cons, List.sum_cons]
      have hpos : (0 : Int) < two64 := by norm_num [two64]
      have hnn : (0 : Int) ≤ ((v : Int) + e.2.delta) % two64 :=
        Int.emod_nonneg _ (by norm_num [two64])
      have hcast : (((((v : Int) + e.2.delta) % two64).toNat : Nat) : Int)
          = ((v : Int) + e.2.delta) % two64 := Int.toNat_of_nonneg hnn
      have hlt : (((((v : Int) + e.2.delta) % two64).toNat : Nat) : Int) < two64 := by
        rw [hcast]; exact Int.emod_lt_of_pos _ hpos
      have hmod : ∀ x d s : Int, ((x + d) % two64 + s) % two64
          = (x + (d + s)) % two64 := by
        intro x d s
        simp only [two64, show ((2 : Int) ^ 64) = 18446744073709551616 by norm_num]
        omega
      by_cases hp : e.2.present = true
      · rw [if_pos hp, ih _ _ _ hlt, hcast, hmod]
      · rw [if_neg hp, ih _ _ _ hlt, hcast, hmod]

/-- Claim C10: Meta.applyChanges updates the voxel count with wrap-around
64-bit arithmetic: for every Meta holding a valid uint64 count and every
blockDiffMap, the new Voxels equals (old Voxels + sum of the deltas) modulo
2^64 — a negative summed delta larger in magnitude than the current count
silently wraps instead of failing or clamping at zero. -/
theorem applyChanges_voxels_wraparound (m : Meta) (bdm : BlockDiffMap)
    (h : (m.Voxels : Int) < two64) :
    ((m.applyChanges bdm).Voxels : Int)
      = ((m.Voxels : Int) + (bdm.map (fun e => e.2.delta)).sum) % two64 := by
  show ((bdm.foldl
        (fun (acc : Nat × List IZYX × List IZYX) e =>
          if e.2.present then
            ((((acc.1 : Int) + e.2.delta) % two64).toNat, acc.2.1 ++ [e.1], acc.2.2)
          else
            ((((acc.1 : Int) + e.2.delta) % two64).toNat, acc.2.1, acc.2.2 ++ [e.1]))
        (m.Voxels, [], [])).1 : Int)
      = ((m.Voxels : Int) + (bdm.map (fun e => e.2.delta)).sum) % two64
  exact applyChanges_fold_voxels bdm m.Voxels [] [] h

/-- Claim C6 (code bug, failing input): for label 1 already merged away
(FinalLabel(1) = 2, found), GetSparseCoarseVol returns the nil payload with a
nil error as the claim states; but GetLegacyRLE passes the nil Meta returned
by GetMappedLabelMeta straight into getLegacyRLEs (and, for the slow format,
getLegacySlowRLEs), which dereference it at len(meta.Blocks) — a nil-pointer
panic instead of a nil payload and nil error. -/
theorem mergedLabel_legacyRLE_crashes :
    GetSparseCoarseVol [] (some mergedMap) 1 noBounds = none
    ∧ GetLegacyRLE (64, 64, 64) (fun _ => []) (fun _ => []) [] (some mergedMap)
        1 noBounds false = .crash
    ∧ GetLegacyRLE (64, 64, 64) (fun _ => []) (fun _ => []) [] (some mergedMap)
        1 noBounds true = .crash :=
  ⟨rfl, rfl, rfl⟩

/-- Claim C8: PutVoxels rejects a PUT whose voxel geometry is not aligned to
the instance's block size with an error, before any state change: the
rejection precedes every block write, every blockChange emission and every
label index update, so the store is untouched. -/
theorem putVoxels_rejects_unaligned (labelsOf prevLabelsOf : IZYX → List Nat)
    (store : BlockStore) (vox : VoxelsGeom) (bs : Nat × Nat × Nat) (mutID : Nat)
    (mutate : Bool) (h : BlockAligned vox bs = false) :
    PutVoxels labelsOf prevLabelsOf store vox bs mutID mutate
      = .error "cannot store voxels in non-block aligned geometry" := by
  simp [PutVoxels, h]

/-- Witness for the C8 theorem: a PUT starting at x = 1 against 64-cubed
blocks. -/
theorem putVoxels_rejects_unaligned_witness :
    BlockAligned ⟨(1, 0, 0), (63, 63, 63)⟩ (64, 64, 64) = false
    ∧ PutVoxels (fun _ => []) (fun _ => []) [] ⟨(1, 0, 0), (63, 63, 63)⟩
        (64, 64, 64) 1 false
      = .error "cannot store voxels in non-block aligned geometry" :=
  ⟨by decide,
   putVoxels_rejects_unaligned (fun _ => []) (fun _ => []) [] ⟨(1, 0, 0), (63, 63, 63)⟩
     (64, 64, 64) 1 false (by decide)⟩

/-- Witness for the C10 theorem: a Meta with 5 voxels receiving a single delta
of -7 wraps around to 2^64 - 2. -/
theorem applyChanges_voxels_wraparound_witness :
    ((5 : Nat) : Int) < two64
    ∧ ((Meta.applyChanges ⟨5, []⟩ [((0, 0, 0), ⟨-7, true⟩)]).Voxels : Int)
      = (((5 : Nat) : Int)
          + (([((0, 0, 0), ⟨-7, true⟩)] : BlockDiffMap).map (fun e => e.2.delta)).sum) % two64 :=
  ⟨by norm_num [two64],
   applyChanges_voxels_wraparound ⟨5, []⟩ [((0, 0, 0), ⟨-7, true⟩)] (by norm_num [two64])⟩

/-- Weakening of the run property in its upper x bound. -/
theorem runOk_mono (good : Int → Nat → Bool) (labelAt : Int → Option Nat)
    (y z x0 : Int) {e1 e2 : Int} (h : e1 ≤ e2) (r : RLERun)
    (hr : runOk good labelAt y z x0 e1 r) : runOk good labelAt y z x0 e2 r := by
  obtain ⟨h1, h2, h3, h4, h5, h6⟩ := hr
  exact ⟨h1, h2, h3, h4, le_trans h5 h, h6⟩

/-- The x scan of a row only appends runs, every appended run satisfies the
row-confinement property, and the open-span invariant is maintained. -/
theorem scanRowAux_ext (good : Int → Nat → Bool) (labelAt : Int → Option Nat)
    (y z x0 : Int) :
    ∀ (rest : List Nat) (x : Int) (s : ScanState),
      (∀ i : Nat, labelAt (x + i) = rest.get? i) →
      openInv good labelAt y z x0 x s →
      ∃ ext, (scanRowAux good y z x rest s).runs = s.runs ++ ext
        ∧ (∀ r ∈ ext, runOk good labelAt y z x0 (x + rest.length) r)
        ∧ openInv good labelAt y z x0 (x + rest.length) (scanRowAux good y z x rest s) := by
  intro rest
  induction rest with
  | nil =>
      intro x s hagree hinv
      refine ⟨[], by simp [scanRowAux], by simp, ?_⟩
      simpa using hinv
  | cons l rest ih =>
      intro x s hagree hinv
      obtain ⟨hx0, hlen, hopen⟩ := hinv
      have hlab : labelAt x = some l := by simpa using hagree 0
      have hagree1 : ∀ i : Nat, labelAt ((x + 1) + i) = rest.get? i := by
        intro i
        have h := hagree (i + 1)
        rw [List.get?_cons_succ] at h
        have hcast : x + ((i + 1 : Nat) : Int) = (x + 1) + (i : Int) := by push_cast; ring
        rw [hcast] at h
        exact h
      have hrw : scanRowAux good y z x (l :: rest) s
          = scanRowAux good y z (x + 1) rest (scanVoxel good y z x l s) := rfl
      have hfin : (x + 1) + (rest.length : Int) = x + ((l :: rest).length : Int) := by
        push_cast [List.length_cons]; ring
      have hstep : ∃ ext0, (scanVoxel good y z x l s).runs = s.runs ++ ext0
          ∧ (∀ r ∈ ext0, runOk good labelAt y z x0 (x + 1) r)
          ∧ openInv good labelAt y z x0 (x + 1) (scanVoxel good y z x l s) := by
        by_cases hg : good x l = true
        · by_cases h0 : s.spanRun = 0
          · have heq : scanVoxel good y z x l s = ⟨s.runs, (x, y, z), 1⟩ := by
              simp [scanVoxel, hg, h0]
            rw [heq]
            refine ⟨[], by simp, by simp, by omega, by simp; omega, ?_⟩
            intro _
            refine ⟨by simp, ?_⟩
            intro j hj
            simp only [show ((1 : Nat) : Int) = 1 by simp] at hj ⊢
            have hj0 : j = 0 := by omega
            subst hj0
            exact ⟨l, by simpa using hlab, by simpa using hg⟩
          · have hpos : 0 < s.spanRun := Nat.pos_of_ne_zero h0
            obtain ⟨hstart, hcov⟩ := hopen hpos
            have heq : scanVoxel good y z x l s = ⟨s.runs, s.spanStart, s.spanRun + 1⟩ := by
              simp [scanVoxel, hg, h0]
            rw [heq]
            refine ⟨[], by simp, by simp, by omega, by push_cast; omega, ?_⟩
            intro _
            constructor
            · rw [hstart]
              have he : x - (s.spanRun : Int) = (x + 1) - ((s.spanRun + 1 : Nat) : Int) := by
                push_cast; ring
              rw [← he]
            · intro j hj
              have hj2 : j < s.spanRun + 1 := hj
              by_cases hjlt : j < s.spanRun
              · have hc := hcov j hjlt
                have he : (x + 1) - ((s.spanRun + 1 : Nat) : Int) + (j : Int)
                    = x - (s.spanRun : Int) + (j : Int) := by push_cast; ring
                rw [he]
                exact hc
              · have hjeq : j = s.spanRun := by omega
                subst hjeq
                have he : (x + 1) - ((s.spanRun + 1 : Nat) : Int) + ((s.spanRun : Nat) : Int)
                    = x := by push_cast; ring
                rw [he]
                exact ⟨l, hlab, hg⟩
        · have hgf : good x l = false := by simpa using hg
          by_cases h0 : s.spanRun = 0
          · have heq : scanVoxel good y z x l s = s := by
              simp [scanVoxel, hgf, h0]
            rw [heq]
            refine ⟨[], by simp, by simp, by omega, by omega, ?_⟩
            intro hc
            omega
          · have hpos : 0 < s.spanRun := Nat.pos_of_ne_zero h0
            obtain ⟨hstart, hcov⟩ := hopen hpos
            have heq : scanVoxel good y z x l s
                = ⟨s.runs ++ [⟨s.spanStart.1, s.spanStart.2.1, s.spanStart.2.2, s.spanRun⟩],
                   s.spanStart, 0⟩ := by
              simp [scanVoxel, hgf, hpos]
            rw [heq]
            refine ⟨[⟨s.spanStart.1, s.spanStart.2.1, s.spanStart.2.2, s.spanRun⟩],
              by simp, ?_, by omega, by show ((0 : Nat) : Int) ≤ x + 1 - x0; push_cast; omega,
              by intro hc; exact absurd hc (lt_irrefl 0)⟩
            intro r hr
            simp only [List.mem_singleton] at hr
            subst hr
            rw [hstart]
            refine ⟨rfl, rfl, hpos, ?_, ?_, ?_⟩
            · simp only []
              omega
            · simp only []
              omega
            · intro j hj
              simp only []
              exact hcov j hj
      obtain ⟨ext0, hruns0, hok0, hinv1⟩ := hstep
      obtain ⟨ext, hruns, hok, hinv2⟩ := ih (x + 1) _ hagree1 hinv1
      refine ⟨ext0 ++ ext, ?_, ?_, ?_⟩
      · rw [hrw, hruns, hruns0, List.append_assoc]
      · intro r hr
        rcases List.mem_append.mp hr with hr | hr
        · refine runOk_mono good labelAt y z x0 ?_ r (hok0 r hr)
          rw [← hfin]
          have : (0 : Int) ≤ (rest.length : Int) := by positivity
          omega
        · rw [← hfin]
          exact hok r hr
      · rw [hrw, ← hfin]
        exact hinv2



/-- A whole row scan (x loop plus forced break) starting with no open span
only appends runs confined to that row, and ends with no open span. -/
theorem scanRow_ext (good : Int → Nat → Bool) (labelAt : Int → Option Nat)
    (y z x0 : Int) (row : List Nat) (s : ScanState)
    (hagree : ∀ i : Nat, labelAt (x0 + i) = row.get? i) (h0 : s.spanRun = 0) :
    ∃ ext, (scanRow good y z x0 row s).runs = s.runs ++ ext
      ∧ (∀ r ∈ ext, runOk good labelAt y z x0 (x0 + row.length) r)
      ∧ (scanRow good y z x0 row s).spanRun = 0 := by
  have hinv0 : openInv good labelAt y z x0 x0 s :=
    ⟨le_refl _, by omega, by intro hc; omega⟩
  obtain ⟨ext1, hruns1, hok1, hinv1⟩ :=
    scanRowAux_ext good labelAt y z x0 row x0 s hagree hinv0
  obtain ⟨hx0, hlen, hopen⟩ := hinv1
  have hsr : scanRow good y z x0 row s = endRow (scanRowAux good y z x0 row s) := rfl
  by_cases hp : 0 < (scanRowAux good y z x0 row s).spanRun
  · obtain ⟨hstart, hcov⟩ := hopen hp
    have heq : endRow (scanRowAux good y z x0 row s)
        = ⟨(scanRowAux good y z x0 row s).runs
            ++ [⟨(scanRowAux good y z x0 row s).spanStart.1,
                 (scanRowAux good y z x0 row s).spanStart.2.1,
                 (scanRowAux good y z x0 row s).spanStart.2.2,
                 (scanRowAux good y z x0 row s).spanRun⟩],
           (scanRowAux good y z x0 row s).spanStart, 0⟩ := by
      simp [endRow, hp]
    refine ⟨ext1 ++ [⟨(scanRowAux good y z x0 row s).spanStart.1,
        (scanRowAux good y z x0 row s).spanStart.2.1,
        (scanRowAux good y z x0 row s).spanStart.2.2,
        (scanRowAux good y z x0 row s).spanRun⟩], ?_, ?_, ?_⟩
    · rw [hsr, heq]
      simp only []
      rw [hruns1, List.append_assoc]
    · intro r hr
      rcases List.mem_append.mp hr with hr | hr
      · exact hok1 r hr
      · simp only [List.mem_singleton] at hr
        subst hr
        rw [hstart]
        refine ⟨rfl, rfl, hp, ?_, ?_, ?_⟩
        · simp only []
          omega
        · simp only []
          omega
        · intro j hj
          simp only [] at hj ⊢
          exact hcov j hj
    · rw [hsr, heq]
  · have heq : endRow (scanRowAux good y z x0 row s) = scanRowAux good y z x0 row s := by
      simp [endRow, hp]
    rw [hsr, heq]
    exact ⟨ext1, hruns1, hok1, by omega⟩

/-- A plane scan only appends runs, each confined to one of its rows. -/
theorem scanPlane_ext (good : Int → Nat → Bool) (rowSkip : Int → Bool)
    (z x0 : Int) (nx : Nat) :
    ∀ (ny : Nat) (y : Int) (data : List Nat) (s : ScanState), s.spanRun = 0 →
      ∃ ext, (scanPlane good rowSkip z x0 nx y ny data s).runs = s.runs ++ ext
        ∧ (∀ r ∈ ext, ∃ iy : Nat, iy < ny ∧
            runOk good (rowLabelAt ((data.drop (iy * nx)).take nx) x0) (y + iy) z x0
              (x0 + nx) r)
        ∧ (scanPlane good rowSkip z x0 nx y ny data s).spanRun = 0 := by
  intro ny
  induction ny with
  | zero =>
      intro y data s h0
      exact ⟨[], by simp [scanPlane], by simp, by simp [scanPlane, h0]⟩
  | succ ny ih =>
      intro y data s h0
      by_cases hskip : rowSkip y = true
      · have hrw : scanPlane good rowSkip z x0 nx y (ny + 1) data s
            = scanPlane good rowSkip z x0 nx (y + 1) ny (data.drop nx) s := by
          simp [scanPlane, hskip]
        obtain ⟨ext, hruns, hok, hend⟩ := ih (y + 1) (data.drop nx) s h0
        refine ⟨ext, by rw [hrw]; exact hruns, ?_, by rw [hrw]; exact hend⟩
        intro r hr
        obtain ⟨iy, hiy, hok1⟩ := hok r hr
        refine ⟨iy + 1, by omega, ?_⟩
        have hrow : ((data.drop nx).drop (iy * nx)).take nx
            = (data.drop ((iy + 1) * nx)).take nx := by
          rw [List.drop_drop]
          congr 2
          ring
        have hy : (y + 1) + (iy : Int) = y + ((iy + 1 : Nat) : Int) := by push_cast; ring
        rw [← hrow, ← hy]
        exact hok1
      · have hskipf : rowSkip y = false := by simpa using hskip
        have hrw : scanPlane good rowSkip z x0 nx y (ny + 1) data s
            = scanPlane good rowSkip z x0 nx (y + 1) ny (data.drop nx)
                (scanRow good y z x0 (data.take nx) s) := by
          simp [scanPlane, hskipf]
        have hagree : ∀ i : Nat,
            rowLabelAt (data.take nx) x0 (x0 + i) = (data.take nx).get? i := by
          intro i
          unfold rowLabelAt
          congr 1
          omega
        obtain ⟨ext1, hruns1, hok1, hend1⟩ :=
          scanRow_ext good (rowLabelAt (data.take nx) x0) y z x0 (data.take nx) s hagree h0
        obtain ⟨ext2, hruns2, hok2, hend2⟩ := ih (y + 1) (data.drop nx) _ hend1
        refine ⟨ext1 ++ ext2, ?_, ?_, by rw [hrw]; exact hend2⟩
        · rw [hrw, hruns2, hruns1, List.append_assoc]
        · intro r hr
          rcases List.mem_append.mp hr with hr | hr
          · refine ⟨0, by omega, ?_⟩
            have h1 := hok1 r hr
            have hxe : x0 + ((data.take nx).length : Int) ≤ x0 + (nx : Int) := by
              have hle := List.length_take_le nx data
              omega
            have h2 := runOk_mono good (rowLabelAt (data.take nx) x0) y z x0 hxe r h1
            simpa using h2
          · obtain ⟨iy, hiy, hok3⟩ := hok2 r hr
            refine ⟨iy + 1, by omega, ?_⟩
            have hrow : ((data.drop nx).drop (iy * nx)).take nx
                = (data.drop ((iy + 1) * nx)).take nx := by
              rw [List.drop_drop]
              congr 2
              ring
            have hy : (y + 1) + (iy : Int) = y + ((iy + 1 : Nat) : Int) := by push_cast; ring
            rw [← hrow, ← hy]
            exact hok3



/-- A volume scan only appends runs, each confined to one row (iy, iz) of the
block, covering only span-accepted voxels of that row. -/
theorem scanVolume_ext (good : Int → Nat → Bool) (rowSkip planeSkip : Int → Bool)
    (y0 x0 : Int) (nx ny : Nat) :
    ∀ (nz : Nat) (z : Int) (data : List Nat) (s : ScanState), s.spanRun = 0 →
      ∃ ext, (scanVolume good rowSkip planeSkip y0 x0 nx ny z nz data s).runs
          = s.runs ++ ext
        ∧ (∀ r ∈ ext, ∃ iz iy : Nat, iz < nz ∧ iy < ny ∧
            runOk good (rowLabelAt ((data.drop (iz * (ny * nx) + iy * nx)).take nx) x0)
              (y0 + iy) (z + iz) x0 (x0 + nx) r)
        ∧ (scanVolume good rowSkip planeSkip y0 x0 nx ny z nz data s).spanRun = 0 := by
  intro nz
  induction nz with
  | zero =>
      intro z data s h0
      exact ⟨[], by simp [scanVolume], by simp, by simp [scanVolume, h0]⟩
  | succ nz ih =>
      intro z data s h0
      by_cases hskip : planeSkip z = true
      · have hrw : scanVolume good rowSkip planeSkip y0 x0 nx ny z (nz + 1) data s
            = scanVolume good rowSkip planeSkip y0 x0 nx ny (z + 1) nz
                (data.drop (ny * nx)) s := by
          simp [scanVolume, hskip]
        obtain ⟨ext, hruns, hok, hend⟩ := ih (z + 1) (data.drop (ny * nx)) s h0
        refine ⟨ext, by rw [hrw]; exact hruns, ?_, by rw [hrw]; exact hend⟩
        intro r hr
        obtain ⟨iz, iy, hiz, hiy, hok1⟩ := hok r hr
        refine ⟨iz + 1, iy, by omega, hiy, ?_⟩
        have hrow : ((data.drop (ny * nx)).drop (iz * (ny * nx) + iy * nx)).take nx
            = (data.drop ((iz + 1) * (ny * nx) + iy * nx)).take nx := by
          rw [List.drop_drop]
          congr 2
          ring
        have hz : (z + 1) + (iz : Int) = z + ((iz + 1 : Nat) : Int) := by push_cast; ring
        rw [← hrow, ← hz]
        exact hok1
      · have hskipf : planeSkip z = false := by simpa using hskip
        have hrw : scanVolume good rowSkip planeSkip y0 x0 nx ny z (nz + 1) data s
            = scanVolume good rowSkip planeSkip y0 x0 nx ny (z + 1) nz
                (data.drop (ny * nx)) (scanPlane good rowSkip z x0 nx y0 ny data s) := by
          simp [scanVolume, hskipf]
        obtain ⟨ext1, hruns1, hok1, hend1⟩ := scanPlane_ext good rowSkip z x0 nx ny y0 data s h0
        obtain ⟨ext2, hruns2, hok2, hend2⟩ := ih (z + 1) (data.drop (ny * nx)) _ hend1
        refine ⟨ext1 ++ ext2, ?_, ?_, by rw [hrw]; exact hend2⟩
        · rw [hrw, hruns2, hruns1, List.append_assoc]
        · intro r hr
          rcases List.mem_append.mp hr with hr | hr
          · obtain ⟨iy, hiy, hok3⟩ := hok1 r hr
            refine ⟨0, iy, by omega, hiy, ?_⟩
            have hrow : (data.drop (iy * nx)).take nx
                = (data.drop (0 * (ny * nx) + iy * nx)).take nx := by
              congr 2
              ring
            have hz : z + ((0 : Nat) : Int) = z := by push_cast; ring
            rw [← hrow, hz]
            exact hok3
          · obtain ⟨iz, iy, hiz, hiy, hok3⟩ := hok2 r hr
            refine ⟨iz + 1, iy, by omega, hiy, ?_⟩
            have hrow : ((data.drop (ny * nx)).drop (iz * (ny * nx) + iy * nx)).take nx
                = (data.drop ((iz + 1) * (ny * nx) + iy * nx)).take nx := by
              rw [List.drop_drop]
              congr 2
              ring
            have hz : (z + 1) + (iz : Int) = z + ((iz + 1 : Nat) : Int) := by push_cast; ring
            rw [← hrow, ← hz]
            exact hok3



/-- Conversion of the scan-level run property into the claimed row property
when the span predicate only accepts non-zero labels of the requested set. -/
theorem runOk_to_runInRow (lbls : List Nat) (good : Int → Nat → Bool)
    (hgood : ∀ x l, good x l = true → l ≠ 0 ∧ l ∈ lbls)
    (row : List Nat) (x0 y z : Int) (nx : Nat) (r : RLERun)
    (h : runOk good (rowLabelAt row x0) y z x0 (x0 + nx) r) :
    runInRow lbls x0 nx y z row r := by
  obtain ⟨h1, h2, h3, h4, h5, h6⟩ := h
  refine ⟨h1, h2, h3, by omega, h4, h5, ?_⟩
  intro j hj
  obtain ⟨l, hl, hg⟩ := h6 j hj
  refine ⟨l, ?_, (hgood _ _ hg).1, (hgood _ _ hg).2⟩
  unfold rowLabelAt at hl
  rw [← hl]
  congr 1
  omega



/-- Claim C7: every RLE run emitted while scanning a block — by addRLEs, and
by addBoundedRLEs under voxel bounds — covers voxels of a single (y, z) row
of the block: the run's y and z match one row, its x range stays within the
row so no run crosses a row boundary and no run's length exceeds the block's
x extent, and every covered voxel carries a non-zero label from the requested
label set. -/
theorem rle_runs_confined_to_rows :
    (∀ (bs : Nat × Nat × Nat) (izyx : IZYX) (data lbls : List Nat)
        (runs : List RLERun),
      addRLEs bs izyx data lbls = .ok runs →
      ∀ r ∈ runs, ∃ iz iy : Nat, iz < bs.2.2 ∧ iy < bs.2.1 ∧
        runInRow lbls (izyx.2.2 * (bs.1 : Int)) bs.1
          (izyx.2.1 * (bs.2.1 : Int) + iy) (izyx.1 * (bs.2.2 : Int) + iz)
          (rowOf data bs.1 bs.2.1 iz iy) r)
    ∧ (∀ (bs : Nat × Nat × Nat) (izyx : IZYX) (data lbls : List Nat)
        (bounds : OptionalBounds) (runs : List RLERun),
      addBoundedRLEs bs izyx data lbls bounds = .ok runs →
      ∀ r ∈ runs, ∃ iz iy : Nat, iz < bs.2.2 ∧ iy < bs.2.1 ∧
        runInRow lbls (izyx.2.2 * (bs.1 : Int)) bs.1
          (izyx.2.1 * (bs.2.1 : Int) + iy) (izyx.1 * (bs.2.2 : Int) + iz)
          (rowOf data bs.1 bs.2.1 iz iy) r) := by
  constructor
  · intro bs izyx data lbls runs hok r hr
    unfold addRLEs at hok
    by_cases hlen : data.length ≠ bs.1 * bs.2.1 * bs.2.2
    · rw [if_pos hlen] at hok
      exact absurd hok (by simp)
    · rw [if_neg hlen] at hok
      have hgood : ∀ (x : Int) (l : Nat),
          (decide (l ≠ 0) && lbls.contains l) = true → l ≠ 0 ∧ l ∈ lbls := by
        intro x l h
        simp only [Bool.and_eq_true, decide_eq_true_eq] at h
        exact ⟨h.1, by simpa using h.2⟩
      obtain ⟨ext, hruns2, hokk, hend⟩ :=
        scanVolume_ext (fun _ l => decide (l ≠ 0) && lbls.contains l)
          (fun _ => false) (fun _ => false)
          (izyx.2.1 * (bs.2.1 : Int)) (izyx.2.2 * (bs.1 : Int)) bs.1 bs.2.1 bs.2.2
          (izyx.1 * (bs.2.2 : Int)) data initScan rfl
      have hruns : runs
          = (scanVolume (fun _ l => decide (l ≠ 0) && lbls.contains l)
              (fun _ => false) (fun _ => false)
              (izyx.2.1 * (bs.2.1 : Int)) (izyx.2.2 * (bs.1 : Int)) bs.1 bs.2.1
              (izyx.1 * (bs.2.2 : Int)) bs.2.2 data initScan).runs := by
        injection hok with h
        exact h.symm
      rw [hruns, hruns2] at hr
      simp only [initScan, List.nil_append] at hr
      obtain ⟨iz, iy, hiz, hiy, hok1⟩ := hokk r hr
      exact ⟨iz, iy, hiz, hiy,
        runOk_to_runInRow lbls _ hgood (rowOf data bs.1 bs.2.1 iz iy) _ _ _ bs.1 r hok1⟩
  · intro bs izyx data lbls bounds runs hok r hr
    unfold addBoundedRLEs at hok
    by_cases hlen : data.length ≠ bs.1 * bs.2.1 * bs.2.2
    · rw [if_pos hlen] at hok
      exact absurd hok (by simp)
    · rw [if_neg hlen] at hok
      have hgood : ∀ (x : Int) (l : Nat),
          (decide (l ≠ 0) && lbls.contains l && !(bounds.OutsideX x)) = true →
            l ≠ 0 ∧ l ∈ lbls := by
        intro x l h
        simp only [Bool.and_eq_true, decide_eq_true_eq] at h
        exact ⟨h.1.1, by simpa using h.1.2⟩
      obtain ⟨ext, hruns2, hokk, hend⟩ :=
        scanVolume_ext (fun x l => decide (l ≠ 0) && lbls.contains l && !(bounds.OutsideX x))
          (fun y => bounds.OutsideY y) (fun z => bounds.OutsideZ z)
          (izyx.2.1 * (bs.2.1 : Int)) (izyx.2.2 * (bs.1 : Int)) bs.1 bs.2.1 bs.2.2
          (izyx.1 * (bs.2.2 : Int)) data initScan rfl
      have hruns : runs
          = (scanVolume (fun x l => decide (l ≠ 0) && lbls.contains l && !(bounds.OutsideX x))
              (fun y => bounds.OutsideY y) (fun z => bounds.OutsideZ z)
              (izyx.2.1 * (bs.2.1 : Int)) (izyx.2.2 * (bs.1 : Int)) bs.1 bs.2.1
              (izyx.1 * (bs.2.2 : Int)) bs.2.2 data initScan).runs := by
        injection hok with h
        exact h.symm
      rw [hruns, hruns2] at hr
      simp only [initScan, List.nil_append] at hr
      obtain ⟨iz, iy, hiz, hiy, hok1⟩ := hokk r hr
      exact ⟨iz, iy, hiz, hiy,
        runOk_to_runInRow lbls _ hgood (rowOf data bs.1 bs.2.1 iz iy) _ _ _ bs.1 r hok1⟩



/-- Witness for the C7 theorem: a 2x2x1 block holding label 7 in three of its
four voxels yields one run per row for addRLEs, and a single clipped run
under an x lower bound of 1 for addBoundedRLEs; the theorem is applied to a
run of each result. -/
theorem rle_runs_confined_to_rows_witness :
    addRLEs (2, 2, 1) (0, 0, 0) [7, 0, 7, 7] [7]
      = .ok [⟨0, 0, 0, 1⟩, ⟨0, 1, 0, 2⟩]
    ∧ addBoundedRLEs (2, 2, 1) (0, 0, 0) [7, 0, 7, 7] [7]
        ⟨some 1, none, none, none, none, none⟩ = .ok [⟨1, 1, 0, 1⟩]
    ∧ (∃ iz iy : Nat, iz < 1 ∧ iy < 2 ∧
        runInRow [7] (0 * ((2 : Nat) : Int)) 2 (0 * ((2 : Nat) : Int) + iy)
          (0 * ((1 : Nat) : Int) + iz) (rowOf [7, 0, 7, 7] 2 2 iz iy) ⟨0, 1, 0, 2⟩)
    ∧ (∃ iz iy : Nat, iz < 1 ∧ iy < 2 ∧
        runInRow [7] (0 * ((2 : Nat) : Int)) 2 (0 * ((2 : Nat) : Int) + iy)
          (0 * ((1 : Nat) : Int) + iz) (rowOf [7, 0, 7, 7] 2 2 iz iy) ⟨1, 1, 0, 1⟩) :=
  ⟨rfl, rfl,
   rle_runs_confined_to_rows.1 (2, 2, 1) (0, 0, 0) [7, 0, 7, 7] [7]
     [⟨0, 0, 0, 1⟩, ⟨0, 1, 0, 2⟩] rfl ⟨0, 1, 0, 2⟩ (by simp),
   rle_runs_confined_to_rows.2 (2, 2, 1) (0, 0, 0) [7, 0, 7, 7] [7]
     ⟨some 1, none, none, none, none, none⟩ [⟨1, 1, 0, 1⟩] rfl ⟨1, 1, 0, 1⟩ (by simp)⟩

end DvidProof
